import Mathlib

/-!
Verification development for the LCUI CSS engine core
(`src/lib/css/src/css_value.c` together with the data-model header).

The C sources are shallowly embedded: strings are lists of characters,
C structs are Lean structures, the process-global `css` module state is
threaded explicitly, and dictionaries are association lists.  Machine
`unsigned int` arithmetic (the selector hash) is modelled as `Nat`
reduced modulo `2 ^ 32`.
-/

namespace LCUICss

/-- C strings (`char *`) are modelled as lists of characters. -/
abbrev Str := List Char

/-- Helper turning a Lean string literal into the embedded string type. -/
def str (s : String) : Str := s.data

/-! ## Style rules and the ordered output list

`css_style_rule_t` carries a specificity `rank`, a source-order
`batch_num` and the rule's property list.  Properties are `(key, value)`
pairs; the value payload is introduced later and is irrelevant to the
ordering claims, so the rule is parametrised by the property payload
only through `RuleProps` below. -/

/-- The validity flag plus payload of one style value
(`css_style_value_t` / the legacy `css_unit_value_t` view used by this
file: the merge functions read and write only `is_valid` and copy the
payload wholesale). -/
structure StyleVal where
  is_valid : Bool
  /-- the `type` discriminant of `css_style_value_t` (0 = `CSS_NO_VALUE`) -/
  vtype : Nat
  /-- payload, abstracted to a natural tag for the scenarios -/
  payload : Nat
  deriving DecidableEq, Repr

/-- A zero-initialised (`calloc`) style value slot. -/
def zeroVal : StyleVal := ⟨false, 0, 0⟩

/-- `css_style_rule_t`: rank, batch number and the sparse property list
(`css_style_props_t`, a list of `(key, value)` pairs in append order). -/
structure StyleRule where
  rank : Nat
  batch_num : Nat
  props : List (Nat × StyleVal)
  deriving DecidableEq, Repr

/-- The strict priority order used by `StyleLink_GetStyleSheets`: the
candidate is placed before the first element it beats, where it beats an
element with a smaller rank, or with an equal rank and a smaller batch
number. -/
def LexGt (a b : StyleRule) : Prop :=
  b.rank < a.rank ∨ (a.rank = b.rank ∧ b.batch_num < a.batch_num)

instance (a b : StyleRule) : Decidable (LexGt a b) := by
  unfold LexGt; infer_instance

/-- The inner scan of `StyleLink_GetStyleSheets`: walk the output list
and insert the rule before the first entry it strictly beats
(`rank` first, then `batch_num`); otherwise append at the end. -/
def insertRule (out : List StyleRule) (r : StyleRule) : List StyleRule :=
  match out with
  | [] => [r]
  | x :: xs => if LexGt r x then r :: x :: xs else x :: insertRule xs r

/-- `StyleLink_GetStyleSheets link outlist`: every rule attached to the
link is merged into the output list with the ordered insertion above. -/
def StyleLink_GetStyleSheets (styles : List StyleRule)
    (out : List StyleRule) : List StyleRule :=
  styles.foldl insertRule out

/-- Ordering invariant of the output list: no later entry strictly
beats an earlier one. -/
def RuleListSorted (l : List StyleRule) : Prop :=
  l.Pairwise fun a b => ¬ LexGt b a

/-- Key used for the stability statement. -/
def sameKey (k b : Nat) (r : StyleRule) : Bool :=
  r.rank == k && r.batch_num == b

/-! ## Dictionaries

The dictionary primitives live in the external util library (out of
scope per the spec); they are modelled from the spec as association
lists: fetch returns the value bound to an exactly-matching key, add
appends a new binding and fails (leaving the dict unchanged) when the
key is already bound. -/

/-- Modelled from the spec: `dict_fetch_value` — exact-match lookup. -/
def dictFetch {α : Type} (d : List (Str × α)) (k : Str) : Option α :=
  (d.find? (fun p => p.1 = k)).map (·.2)

/-- Modelled from the spec: `dict_add` — returns 0 on success and a
nonzero error code when the key is already present. -/
def dictAdd {α : Type} (d : List (Str × α)) (k : Str) (v : α) :
    List (Str × α) × Int :=
  match dictFetch d k with
  | some _ => (d, 1)
  | none => (d ++ [(k, v)], 0)

/-! ## Keyword registry and value-type aliases -/

/-- `css_keyword_t` entries of the `css.keywords` dict, keyed by name. -/
abbrev Keywords := List (Str × Int)

/-- `css_get_keyword_key`: the keyword's key, or `-1` when absent. -/
def cssGetKeywordKey (keywords : Keywords) (s : Str) : Int :=
  match dictFetch keywords s with
  | some k => k
  | none => -1

/-- `css_register_value_type_alias`: rejected with `-1` whenever
`css_get_keyword_key(alias)` is nonzero (C truthiness), otherwise the
aliasStr is added to the `type_alias` dict.  Returns the new aliasStr dict
and the return code. -/
def cssRegisterValueTypeAlias (keywords : Keywords)
    (type_alias : List (Str × Str)) (type_name aliasStr : Str) :
    List (Str × Str) × Int :=
  if cssGetKeywordKey keywords aliasStr ≠ 0 then (type_alias, -1)
  else dictAdd type_alias aliasStr type_name

/-! ## Style declarations -/

/-- `css_style_declaration_t`: a dense sheet with a logical `length`.
`sheet` models the allocated cells (`css_style_declaration_create`
allocates one cell more than `length`). -/
structure StyleDecl where
  sheet : List StyleVal
  length : Nat
  deriving DecidableEq, Repr

/-- The `CSS_NO_VALUE` discriminant (first enumerator, value 0). -/
def CSS_NO_VALUE : Nat := 0

/-- `css_style_declaration_create`: length is the current property
count; `calloc` zeroes `length + 1` cells. -/
def css_style_declaration_create (count : Nat) : StyleDecl :=
  { length := count, sheet := List.replicate (count + 1) zeroVal }

/-- `css_unit_value_merge` for a slot: the destination takes the
source's payload and becomes valid. -/
def unitValueMerge (src : StyleVal) : StyleVal :=
  { is_valid := true, vtype := src.vtype, payload := src.payload }

/-- The `is_valid = FALSE` initialisation loop run after a `realloc`
grow: clears validity of all cells with index in `[lo, hi]`.  (The C
leaves the other fields of freshly reallocated cells uninitialised;
no other field of those cells is ever read before being written.) -/
def clearValidRange (sheet : List StyleVal) (lo hi : Nat) : List StyleVal :=
  sheet.mapIdx (fun i v => if lo ≤ i ∧ i ≤ hi then { v with is_valid := false } else v)

/-- One iteration of `css_style_declaration_merge_properties`: grow the
sheet only when `key > length` (note: strictly greater), then write the
slot if it is still invalid and the incoming value is valid. -/
def mergePropStep (ss : StyleDecl) (p : Nat × StyleVal) : StyleDecl :=
  let key := p.1
  let ss :=
    if key > ss.length then
      { sheet := clearValidRange
          (ss.sheet ++ List.replicate (key + 1 - ss.sheet.length) zeroVal)
          ss.length key,
        length := key + 1 }
    else ss
  if (ss.sheet.getD key zeroVal).is_valid = false ∧ p.2.is_valid then
    { ss with sheet := ss.sheet.set key (unitValueMerge p.2) }
  else ss

/-- `css_style_declaration_merge_properties`: fold the rule's property
list into the declaration (first writer wins on each slot). -/
def css_style_declaration_merge_properties (ss : StyleDecl)
    (props : List (Nat × StyleVal)) : StyleDecl :=
  props.foldl mergePropStep ss

/-! ## Property registration -/

/-- `css_property_definition_t` (only the fields reachable before the
early return matter; the dead tail of the C function would fill the
rest). -/
structure PropDef where
  key : Int
  name : Str
  deriving DecidableEq, Repr

/-- The property-related slice of the `css` module state. -/
structure PropState where
  /-- `css.properties`, the definition array (`none` = uninitialised cell) -/
  properties : List (Option PropDef)
  /-- `css.properties_length` -/
  properties_length : Nat
  /-- `css.property_map` name → definition dict (the value is the key index) -/
  property_map : List (Str × PropDef)
  /-- `css.count` -/
  count : Nat
  deriving DecidableEq, Repr

/-- `css_register_property_with_key`.  The C first (when
`key >= css.properties_length`) reallocs the array to `key` entries and
sets `properties_length = key`; it then allocates the definition and
immediately tests `if (prop) { return -1; }` — the test is inverted, so
on a successful allocation (the only case modelled; allocation failure
is fatal per the spec) the function always returns `-1` and the rest of
its body is dead code. -/
def cssRegisterPropertyWithKey (st : PropState) (key : Nat)
    (_name _syn _initial : Str) : Int × PropState :=
  let st1 :=
    if key ≥ st.properties_length then
      { st with
        properties := st.properties.take key ++
          List.replicate (key - st.properties.length) none,
        properties_length := key }
    else st
  (-1, st1)

/-- `css_register_property`: registers at the next dense index. -/
def cssRegisterProperty (st : PropState) (name syn initial : Str) :
    Int × PropState :=
  cssRegisterPropertyWithKey st st.properties_length name syn initial

/-- `css_get_property_by_key`. -/
def cssGetPropertyByKey (st : PropState) (key : Nat) : Option PropDef :=
  if key < st.properties_length then (st.properties.getD key none) else none

/-! ## The value-definition compiler (`css_compile_valdef`)

The parser dispatch loop (`css_valdef_parser_parse`) only handles the
`NONE` and `ERROR` targets; for every other target it falls into the
`default: break` arm and merely advances, so the keyword / data-type /
sign handlers are dead code and are not part of the reachable
semantics. -/

inductive VTarget where
  | tnone | terror | tkeyword | tsign
  deriving DecidableEq, Repr

/-- The live fields of `css_valdef_parser_t`. -/
structure VState where
  target : VTarget
  pos : Nat
  deriving DecidableEq, Repr

def isWS (c : Char) : Bool :=
  c = ' ' ∨ c = '\n' ∨ c = '\r' ∨ c = '\t'

/-- `css_valdef_parser_parse`: the scanning loop, with the
`size < buffer_size` guard expressed through the `fuel` argument
(`fuel = buffer_size - size`, initially 512).  On target `ERROR` the
function returns 0.  `css_valdef_parser_parse_target` decrements `cur`
after switching to a non-`NONE` target, which the loop's `++cur`
cancels, hence those branches re-examine the same character (and any
target other than `NONE`/`ERROR` just advances). -/
def parseGo : Nat → List Char → Nat → VState → Nat × VState
  | 0, _, size, st => (size, st)
  | _ + 1, [], size, st => (size, st)
  | fuel + 1, c :: rest, size, st =>
    match st.target with
    | .terror => (0, st)
    | .tnone =>
      if isWS c then parseGo fuel rest (size + 1) st
      else if c = '|' ∨ c = '&' ∨ c = '<' then
        parseGo fuel (c :: rest) (size + 1) { st with target := .tsign, pos := 0 }
      else if c = '>' ∨ c = ']' then
        parseGo fuel rest (size + 1) { st with target := .terror }
      else
        parseGo fuel (c :: rest) (size + 1) { st with target := .tkeyword, pos := 0 }
    | _ => parseGo fuel rest (size + 1) st

/-- One `css_valdef_parser_parse` call over the remaining input. -/
def cssValdefParserParse (cs : List Char) (st : VState) : Nat × VState :=
  parseGo 512 cs 0 st

/-- The driving loop of `css_compile_valdef`: reparse from `p += len`
until a window consumes nothing; `-1` on a parser error, otherwise 0
(`css_valdef_parser_output` is a stub returning 0).  Each non-final
iteration consumes at least one character, so `length + 2` rounds of
fuel always suffice. -/
def compileGo : Nat → List Char → VState → Int
  | 0, _, _ => 0
  | fuel + 1, cs, st =>
    let r := cssValdefParserParse cs st
    if r.2.target = .terror then -1
    else if r.1 = 0 then 0
    else compileGo fuel (cs.drop r.1) r.2

/-- `css_compile_valdef` (the output tree argument is untouched by the
reachable code). -/
def cssCompileValdef (s : Str) : Int :=
  compileGo (s.length + 2) s ⟨.tnone, 0⟩

theorem lexGt_asymm {a b : StyleRule} (h : LexGt a b) : ¬ LexGt b a := by
  rcases h with h | ⟨h1, h2⟩ <;> intro h' <;> rcases h' with h' | ⟨h1', h2'⟩ <;> omega

theorem lexGt_trans_notGt {a b c : StyleRule} (hab : LexGt a b) (hcb : ¬ LexGt c b) :
    LexGt a c := by
  unfold LexGt at *
  push_neg at hcb
  obtain ⟨h1, h2⟩ := hcb
  rcases hab with h | ⟨e, h⟩
  · exact Or.inl (by omega)
  · rcases Nat.lt_or_eq_of_le h1 with l1 | e1
    · exact Or.inl (by omega)
    · exact Or.inr ⟨by omega, by have := h2 e1; omega⟩

/-- Inserting a rule adds exactly that rule to the list's members. -/
theorem mem_insertRule {l : List StyleRule} {r y : StyleRule}
    (hy : y ∈ insertRule l r) : y ∈ l ∨ y = r := by
  induction l with
  | nil => simp [insertRule] at hy; exact Or.inr hy
  | cons z zs ih =>
    simp only [insertRule] at hy
    split at hy
    · rcases List.mem_cons.mp hy with rfl | hy
      · exact Or.inr rfl
      · exact Or.inl hy
    · rcases List.mem_cons.mp hy with rfl | hy
      · exact Or.inl (List.mem_cons_self _ _)
      · rcases ih hy with hz | hz
        · exact Or.inl (List.mem_cons_of_mem _ hz)
        · exact Or.inr hz

theorem insertRule_sorted {l : List StyleRule} (r : StyleRule)
    (h : RuleListSorted l) : RuleListSorted (insertRule l r) := by
  induction l with
  | nil => simp [insertRule, RuleListSorted]
  | cons x xs ih =>
    rcases List.pairwise_cons.mp h with ⟨hx, hxs⟩
    by_cases hgt : LexGt r x
    · simp only [insertRule, if_pos hgt]
      refine List.pairwise_cons.mpr ⟨?_, List.pairwise_cons.mpr ⟨hx, hxs⟩⟩
      intro y hy
      rcases List.mem_cons.mp hy with rfl | hy
      · exact lexGt_asymm hgt
      · exact fun hyr => lexGt_asymm (lexGt_trans_notGt hgt (hx y hy)) hyr
    · simp only [insertRule, if_neg hgt]
      refine List.pairwise_cons.mpr ⟨?_, ih hxs⟩
      intro y hy
      rcases mem_insertRule hy with hy' | rfl
      · exact hx y hy'
      · exact hgt

theorem getStyleSheets_sorted (styles out : List StyleRule)
    (h : RuleListSorted out) : RuleListSorted (StyleLink_GetStyleSheets styles out) := by
  induction styles generalizing out with
  | nil => exact h
  | cons s ss ih => exact ih _ (insertRule_sorted s h)

theorem insertRule_filter {l : List StyleRule} (r : StyleRule) (k b : Nat)
    (h : RuleListSorted l) :
    (insertRule l r).filter (sameKey k b) =
      if sameKey k b r then l.filter (sameKey k b) ++ [r]
      else l.filter (sameKey k b) := by
  induction l with
  | nil => cases hr : sameKey k b r <;> simp [insertRule, hr]
  | cons x xs ih =>
    rcases List.pairwise_cons.mp h with ⟨hx, hxs⟩
    by_cases hgt : LexGt r x
    · simp only [insertRule, if_pos hgt]
      by_cases hr : sameKey k b r = true
      · -- no element of x :: xs can share r's key: they are all beaten by r
        have hnone : ∀ y ∈ x :: xs, sameKey k b y = false := by
          intro y hy
          have hlt : LexGt r y := by
            rcases List.mem_cons.mp hy with rfl | hy
            · exact hgt
            · exact lexGt_trans_notGt hgt (hx y hy)
          simp only [sameKey, Bool.and_eq_true, beq_iff_eq] at hr
          rcases hr with ⟨hrk, hrb⟩
          cases hyk : sameKey k b y
          · rfl
          · simp only [sameKey, Bool.and_eq_true, beq_iff_eq] at hyk
            rcases hyk with ⟨hyk, hyb⟩
            rcases hlt with h' | ⟨h1', h2'⟩ <;> omega
        have hnil : (x :: xs).filter (sameKey k b) = [] :=
          List.filter_eq_nil_iff.mpr (fun y hy => by simp [hnone y hy])
        simp [List.filter_cons, hr, hnil]
      · simp only [Bool.not_eq_true] at hr
        simp [List.filter_cons, hr]
    · simp only [insertRule, if_neg hgt]
      rw [List.filter_cons, ih hxs]
      cases hxk : sameKey k b x <;> cases hr : sameKey k b r <;> simp [hxk, hr]

theorem getStyleSheets_filter (styles out : List StyleRule) (k b : Nat)
    (h : RuleListSorted out) :
    (StyleLink_GetStyleSheets styles out).filter (sameKey k b) =
      out.filter (sameKey k b) ++ styles.filter (sameKey k b) := by
  induction styles generalizing out with
  | nil => simp [StyleLink_GetStyleSheets]
  | cons s ss ih =>
    show (StyleLink_GetStyleSheets ss (insertRule out s)).filter (sameKey k b) = _
    rw [ih _ (insertRule_sorted s h), insertRule_filter s k b h, List.filter_cons]
    cases hs : sameKey k b s <;> simp [hs]


/-! ## Simple-selector nodes and the name collector -/

/-- `css_selector_node_t`. -/
structure SNode where
  typ : Option Str
  id : Option Str
  classes : List Str
  status : List Str
  fullname : Option Str
  rank : Nat
  deriving DecidableEq, Repr

/-- Join a list of segments, prefixing each with `sep`
(`.a.b`, `:h:f`, …). -/
def joinWith (sep : Char) (items : List Str) : Str :=
  (items.map (fun s => sep :: s)).flatten

/-- The `LEVEL_STATUS` / `LEVEL_STATUS_2` recursion of
`css_selector_collect_name`: from the current full name, emit every
extension by a non-empty, index-increasing subset of the remaining
items, each item prefixed with `sep`, in depth-first order. -/
def chainExt (sep : Char) (pfx : Str) : List Str → List Str
  | [] => []
  | x :: rest =>
    ((pfx ++ sep :: x) :: chainExt sep (pfx ++ sep :: x) rest) ++
      chainExt sep pfx rest

/-- The `LEVEL_CLASS_2` recursion: for each remaining class, emit the
extended name, then its further class extensions, then its status
extensions. -/
def classChain (status : List Str) (pfx : Str) : List Str → List Str
  | [] => []
  | c :: rest =>
    ((pfx ++ '.' :: c) ::
      (classChain status (pfx ++ '.' :: c) rest ++
        chainExt ':' (pfx ++ '.' :: c) status)) ++
      classChain status pfx rest

/-- The `LEVEL_CLASS` case: like `LEVEL_CLASS_2` but its inner `while`
also revisits `LEVEL_STATUS_2` with `status_i = 0`, re-emitting the
status subsets that skip the first status. -/
def classLevel (status : List Str) (pfx : Str) : List Str → List Str
  | [] => []
  | c :: rest =>
    ((pfx ++ '.' :: c) ::
      (classChain status (pfx ++ '.' :: c) rest ++
        chainExt ':' (pfx ++ '.' :: c) status ++
        chainExt ':' (pfx ++ '.' :: c) (status.drop 1))) ++
      classLevel status pfx rest

/-- The `LEVEL_ID` case plus its trailing level loop (`LEVEL_CLASS`
then `LEVEL_STATUS`; the `_2` levels are skipped by the loop). -/
def collectID (n : SNode) (pfx : Str) : List Str :=
  match n.id with
  | none => []
  | some d =>
    (pfx ++ '#' :: d) ::
      (classLevel n.status (pfx ++ '#' :: d) n.classes ++
        chainExt ':' (pfx ++ '#' :: d) n.status)

/-- The `LEVEL_TYPE` case (the type overwrites the empty buffer) plus
its trailing level loop. -/
def collectTYPE (n : SNode) : List Str :=
  match n.typ with
  | none => []
  | some t =>
    t :: (collectID n t ++ classLevel n.status t n.classes ++
      chainExt ':' t n.status)

/-- `css_selector_node_get_name_list`: run the collector from
`LEVEL_NONE`, whose trailing loop visits `LEVEL_TYPE`, `LEVEL_ID`,
`LEVEL_CLASS` and `LEVEL_STATUS` on the empty buffer. -/
def cssSelectorNodeGetNameList (n : SNode) : List Str :=
  collectTYPE n ++ collectID n [] ++ classLevel n.status [] n.classes ++
    chainExt ':' [] n.status

/-- The candidate-name list `css_query_selector_from_group` builds for
the target node when no explicit name is passed: the node's expansion
followed by an explicitly appended `"*"`. -/
def queryTargetNames (n : SNode) : List Str :=
  cssSelectorNodeGetNameList n ++ [str "*"]

/-- The concrete node of claim C4:
`{type=tv, id=m, classes={a,b}, status={h}}`. -/
def tvNode : SNode :=
  { typ := some (str "tv"), id := some (str "m"),
    classes := [str "a", str "b"], status := [str "h"],
    fullname := none, rank := 0 }

/-! ## The selector parser (`css_selector_create`) -/

/-- Identifier characters accepted by the selector lexer:
letters, digits, `-`, `_`, `*`. -/
def identChar (c : Char) : Bool :=
  c = '-' ∨ c = '_' ∨ c = '*' ∨ ('a' ≤ c ∧ c ≤ 'z') ∨
    ('A' ≤ c ∧ c ≤ 'Z') ∨ ('0' ≤ c ∧ c ≤ '9')

/-- `strcmp(a, b) < 0` over unsigned character codes. -/
def strLt : Str → Str → Bool
  | [], [] => false
  | [], _ :: _ => true
  | _ :: _, [] => false
  | a :: as, b :: bs =>
    if a.toNat < b.toNat then true
    else if b.toNat < a.toNat then false
    else strLt as bs

/-- Modelled from the spec: `strlist_sorted_add` from the external
util library — insert into a sorted, duplicate-suppressing string set;
the Boolean reports whether the string was added (the C returns 0
exactly in that case). -/
def strlistSortedAdd : List Str → Str → List Str × Bool
  | [], s => ([s], true)
  | x :: xs, s =>
    if s = x then (x :: xs, false)
    else if strLt s x then (s :: x :: xs, true)
    else
      match strlistSortedAdd xs s with
      | (l, ok) => (x :: l, ok)

def TYPE_RANK : Nat := 1
def CLASS_RANK : Nat := 10
def PCLASS_RANK : Nat := 10
def ID_RANK : Nat := 100

/-- A freshly `calloc`ed selector node. -/
def emptySNode : SNode := ⟨none, none, [], [], none, 0⟩

/-- `SelectorNode_Save`: commit the buffered component `name` to the
node according to the pending token type (`0` = type, `:` = status,
`.` = class, `#` = id); returns the updated node and the rank
contribution (0 = failure: empty component, duplicate id/type, or
duplicate class/status). -/
def SelectorNode_Save (nd : SNode) (name : Str) (typ : Char) : SNode × Nat :=
  if name.length < 1 then (nd, 0)
  else if typ = '\x00' then
    if nd.typ.isSome then (nd, 0) else ({ nd with typ := some name }, TYPE_RANK)
  else if typ = ':' then
    if (strlistSortedAdd nd.status name).2 then
      ({ nd with status := (strlistSortedAdd nd.status name).1 }, PCLASS_RANK)
    else (nd, 0)
  else if typ = '.' then
    if (strlistSortedAdd nd.classes name).2 then
      ({ nd with classes := (strlistSortedAdd nd.classes name).1 }, CLASS_RANK)
    else (nd, 0)
  else if typ = '#' then
    if nd.id.isSome then (nd, 0) else ({ nd with id := some name }, ID_RANK)
  else (nd, 0)

/-- The specificity a node's current content accounts for
(the sums accumulated by `css_selector_node_update`). -/
def nodeRankOf (n : SNode) : Nat :=
  (if n.id.isSome then ID_RANK else 0) + (if n.typ.isSome then TYPE_RANK else 0) +
    CLASS_RANK * n.classes.length + PCLASS_RANK * n.status.length

/-- The canonical full name built by `css_selector_node_update`:
type, then `#id`, then `.`-prefixed classes, then `:`-prefixed
states. -/
def fullnameOf (n : SNode) : Str :=
  (match n.typ with | some t => t | none => []) ++
    (match n.id with | some d => '#' :: d | none => []) ++
    joinWith '.' n.classes ++ joinWith ':' n.status

/-- The length accumulator of `css_selector_node_update` (each present
component contributes its length plus one); the full name is only
built when it is positive. -/
def updLen (n : SNode) : Nat :=
  (match n.id with | some d => d.length + 1 | none => 0) +
    (match n.typ with | some t => t.length + 1 | none => 0) +
    (n.classes.map (fun c => c.length + 1)).sum +
    (n.status.map (fun s => s.length + 1)).sum

/-- `css_selector_node_update`: recompute `rank` and `fullname` from
the node's content. -/
def css_selector_node_update (n : SNode) : SNode :=
  { n with rank := nodeRankOf n,
           fullname := if updLen n > 0 then some (fullnameOf n) else none }

/-- `css_selector_t`. -/
structure Selector where
  rank : Nat
  batch_num : Nat
  length : Nat
  hash : Nat
  nodes : List SNode
  deriving DecidableEq, Repr

/-- 32-bit wrap-around for the `unsigned int` selector hash. -/
def M32 : Nat := 2 ^ 32

/-- One step of the DJB-style rolling hash
(`hash = ((hash << 5) + hash) + c`). -/
def djbStep (h : Nat) (c : Char) : Nat := (h * 33 + c.toNat) % M32

/-- `css_selector_update`: hash 5381 rolled over the concatenation of
the node full names. -/
def cssSelectorUpdateHash (nodes : List SNode) : Nat :=
  nodes.foldl (fun h n => (n.fullname.getD []).foldl djbStep h) 5381

/-- The loop state of `css_selector_create`: completed nodes, the node
under construction (`node`), the component buffer (`name`/`ni`), the
saving flag, the pending token type, the accumulated selector rank,
plus a ghost `err` flag recording whether any `SelectorNode_Save`
failed (the C logs an "invalid selector node" error and drops the node
in the mid-string cases, and silently drops it in the epilogue), and a
`fatal` flag for the paths on which the C returns `NULL`. -/
structure PSt where
  nodes : List SNode
  cur : Option SNode
  name : Str
  saving : Bool
  typ : Char
  rank : Nat
  err : Bool
  fatal : Bool
  deriving DecidableEq, Repr

def pInit : PSt := ⟨[], none, [], false, '\x00', 0, false, false⟩

/-- The `if (!node && is_saving)` block at the top of the parse loop:
allocate the node under construction (fatal on depth overflow). -/
def pAlloc (st : PSt) : PSt :=
  if st.cur.isNone ∧ st.saving then
    if st.nodes.length ≥ 32 then { st with fatal := true }
    else { st with cur := some emptySNode }
  else st

/-- The `case ':': case '.': case '#':` branch: start saving, or commit
the previous component first (dropping the node on failure). -/
def pSepChar (st : PSt) (c : Char) : PSt :=
  if ¬ st.saving then { st with saving := true, typ := c }
  else if 0 < (SelectorNode_Save (st.cur.getD emptySNode) st.name st.typ).2 then
    { st with
      cur := some (SelectorNode_Save (st.cur.getD emptySNode) st.name st.typ).1,
      typ := c,
      rank := st.rank + (SelectorNode_Save (st.cur.getD emptySNode) st.name st.typ).2,
      name := [], saving := true }
  else
    { st with cur := none, typ := c, name := [], saving := true, err := true }

/-- The whitespace branch: complete the node (update and emit it) on a
successful save, drop it otherwise. -/
def pWS (st : PSt) : PSt :=
  if ¬ st.saving then { st with name := [], cur := none }
  else if 0 < (SelectorNode_Save (st.cur.getD emptySNode) st.name st.typ).2 then
    { st with
      saving := false, cur := none, name := [],
      rank := st.rank + (SelectorNode_Save (st.cur.getD emptySNode) st.name st.typ).2,
      nodes := st.nodes ++
        [css_selector_node_update
          (SelectorNode_Save (st.cur.getD emptySNode) st.name st.typ).1] }
  else { st with saving := false, cur := none, name := [], err := true }

/-- The identifier branch: start a type token if not saving, then
append the character to the component buffer. -/
def pIdent (st : PSt) (c : Char) : PSt :=
  if ¬ st.saving then
    { st with typ := '\x00', saving := true, name := st.name ++ [c] }
  else { st with name := st.name ++ [c] }

/-- One character of the `css_selector_create` loop. -/
def pStep (st : PSt) (c : Char) : PSt :=
  if st.fatal then st
  else if (pAlloc st).fatal then pAlloc st
  else if c = ':' ∨ c = '.' ∨ c = '#' then pSepChar (pAlloc st) c
  else if c = ' ' ∨ c = '\r' ∨ c = '\n' ∨ c = '\t' then pWS (pAlloc st)
  else if identChar c then pIdent (pAlloc st) c
  else { pAlloc st with fatal := true }

/-- The epilogue of `css_selector_create` (the `if (is_saving)` block
after the loop) followed by `css_selector_update`; `none` models a
`NULL` return.  The returned Boolean is the ghost `err` flag. -/
def mkSelector (nodes : List SNode) (rank batch : Nat) (err : Bool) :
    Option (Selector × Bool) :=
  some ({ rank := rank, batch_num := batch, length := nodes.length,
          hash := cssSelectorUpdateHash nodes, nodes := nodes }, err)

def pFinish (st : PSt) (batch : Nat) : Option (Selector × Bool) :=
  if st.fatal then none
  else if st.saving then
    if st.cur.isNone ∧ st.nodes.length ≥ 32 then none
    else if 0 < (SelectorNode_Save (st.cur.getD emptySNode) st.name st.typ).2 then
      mkSelector
        (st.nodes ++
          [css_selector_node_update
            (SelectorNode_Save (st.cur.getD emptySNode) st.name st.typ).1])
        (st.rank + (SelectorNode_Save (st.cur.getD emptySNode) st.name st.typ).2)
        batch st.err
    else mkSelector st.nodes st.rank batch true
  else mkSelector st.nodes st.rank batch st.err

/-- `css_selector_create` with the process-global batch counter passed
explicitly, returning the selector together with the ghost `err`
flag. -/
def cssSelectorCreateFull (text : Str) (batch : Nat) : Option (Selector × Bool) :=
  pFinish (text.foldl pStep pInit) batch

/-- `css_selector_create` proper. -/
def cssSelectorCreate (text : Str) (batch : Nat) : Option Selector :=
  (cssSelectorCreateFull text batch).map (·.1)

/-! ## The style-link trie

A link is identified by the chain of node full names from the
rightmost (target) position outward: the link stored at depth `d` in
the group keyed by `fullname_d` under the parent key
`"fullname_(d-1) … fullname_0"` corresponds to the chain
`[fullname_0, …, fullname_d]`.  (At depth 0 the only parent key is
`"*"`.)  The `parents` dict of the chain `c` maps a name `n` to the
link of chain `c ++ [n]`, so it is modelled as the set of such
names. -/

structure StyleLink where
  styles : List StyleRule
  parents : List Str
  deriving DecidableEq, Repr

abbrev Chain := List Str
abbrev Trie := List (Chain × StyleLink)

def trieFind (t : Trie) (c : Chain) : Option StyleLink :=
  (t.find? (fun p => p.1 = c)).map (·.2)

/-- Look up / create the link of a chain. -/
def trieEnsure (t : Trie) (c : Chain) : Trie :=
  if (trieFind t c).isSome then t else t ++ [(c, ⟨[], []⟩)]

/-- `if (!dict_fetch_value(parents, sn->fullname)) dict_add(...)`. -/
def trieAddParent (t : Trie) (c : Chain) (n : Str) : Trie :=
  t.map (fun p =>
    if p.1 = c then
      (p.1, { p.2 with parents :=
        if n ∈ p.2.parents then p.2.parents else p.2.parents ++ [n] })
    else p)

/-- `list_append_node(&link->styles, &snode->node)`. -/
def trieAppendRule (t : Trie) (c : Chain) (r : StyleRule) : Trie :=
  t.map (fun p =>
    if p.1 = c then (p.1, { p.2 with styles := p.2.styles ++ [r] }) else p)

/-- The right-to-left walk of `css_select_style_properties` past depth
0: ensure each deeper link exists and record it in the previous
depth's `parents`. -/
def insertWalk (t : Trie) (c : Chain) : List Str → Trie
  | [] => t
  | n :: rest =>
    insertWalk (trieAddParent (trieEnsure t (c ++ [n])) c n) (c ++ [n]) rest

/-- `css_select_style_properties` followed by appending the style rule
to the final link (the `space` string-pool argument only feeds the
debug printer and is omitted). -/
def cssSelectStyleProperties (t : Trie) (sel : Selector) (r : StyleRule) : Trie :=
  match sel.nodes.reverse.map (fun n => n.fullname.getD []) with
  | [] => t
  | n0 :: rest =>
    trieAppendRule (insertWalk (trieEnsure t [n0]) [n0] rest) (n0 :: rest) r

/-- `css_style_properties_merge`: the valid slots of a declaration, in
index order, as the rule's property list. -/
def cssStylePropertiesMergeOf (d : StyleDecl) : List (Nat × StyleVal) :=
  (List.range d.length).filterMap (fun i =>
    if (d.sheet.getD i zeroVal).is_valid then
      some (i, unitValueMerge (d.sheet.getD i zeroVal))
    else none)

/-- The mutable module state touched by rule insertion and queries. -/
structure CssState where
  /-- `css.cache`, keyed by selector hash -/
  cache : List (Nat × StyleDecl)
  trie : Trie
  /-- `css.count`, the property count -/
  count : Nat
  deriving DecidableEq, Repr

/-- `css_add_style_sheet`: `dict_empty(css.cache, NULL)` first, then
the trie insertion with a rule carrying the selector's rank and batch
number and the declaration's valid slots. -/
def cssAddStyleSheet (st : CssState) (sel : Selector) (style : StyleDecl) :
    CssState :=
  { cache := [],
    trie := cssSelectStyleProperties st.trie sel
      ⟨sel.rank, sel.batch_num, cssStylePropertiesMergeOf style⟩,
    count := st.count }

/-- The ancestor `while (--i >= 0)` loop of
`css_query_selector_from_link` at chain `c`: for each remaining
ancestor index (from `i - 1` down to 0), expand that node's names and,
for every name present in the link's `parents`, recurse into the
parent link (collecting its styles first, as
`css_query_selector_from_link` does). -/
def ancestors (t : Trie) (sn : List SNode) :
    Nat → Chain → StyleLink → List StyleRule → List StyleRule
  | 0, _, _, out => out
  | i + 1, c, lnk, out =>
    ancestors t sn i c lnk
      ((cssSelectorNodeGetNameList (sn.getD i emptySNode)).foldl
        (fun acc nm =>
          if nm ∈ lnk.parents then
            match trieFind t (c ++ [nm]) with
            | some l' =>
              ancestors t sn i (c ++ [nm]) l'
                (StyleLink_GetStyleSheets l'.styles acc)
            | none => acc
          else acc)
        out)

/-- `css_query_selector_from_link`: collect the link's own styles, then
match ancestors through `parents`. -/
def cssQuerySelectorFromLink (t : Trie) (sn : List SNode) (c : Chain)
    (lnk : StyleLink) (i : Nat) (out : List StyleRule) : List StyleRule :=
  ancestors t sn i c lnk (StyleLink_GetStyleSheets lnk.styles out)

/-- `css_query_selector_from_group` (group 0): for each candidate name
of the rightmost node (or the one forced name), enter the depth-0 link
of that name and query from it. -/
def cssQuerySelectorFromGroup (t : Trie) (nameOpt : Option Str)
    (s : Selector) (out : List StyleRule) : List StyleRule :=
  if s.nodes.length < 1 then out
  else
    let i := s.nodes.length - 1
    let names :=
      match nameOpt with
      | some nm => [nm]
      | none => queryTargetNames (s.nodes.getD i emptySNode)
    names.foldl
      (fun acc nm =>
        match trieFind t [nm] with
        | some lnk => cssQuerySelectorFromLink t s.nodes [nm] lnk i acc
        | none => acc)
      out

/-- Modelled from the spec: `css_query_selector`, the query entry point
(declared in the library header, not part of this file), walks the trie
from the rightmost node through group 0 with no forced name. -/
def cssQuerySelector (st : CssState) (s : Selector) : List StyleRule :=
  cssQuerySelectorFromGroup st.trie none s []

/-- `css_get_computed_style_with_cache`: probe the cache by hash;
on a miss, create a declaration sized to the property count, merge the
query's rules in order, cache and return it. -/
def cssGetComputedStyleWithCache (st : CssState) (s : Selector) :
    CssState × StyleDecl :=
  match (st.cache.find? (fun p => p.1 = s.hash)).map (·.2) with
  | some d => (st, d)
  | none =>
    let d := (cssQuerySelector st s).foldl
      (fun d r => css_style_declaration_merge_properties d r.props)
      (css_style_declaration_create st.count)
    ({ st with cache := st.cache ++ [(s.hash, d)] }, d)

/-- `css_style_declaration_clear`: destroy (invalidate) every slot
with index below the logical length. -/
def cssStyleDeclarationClear (ss : StyleDecl) : StyleDecl :=
  { ss with sheet := ss.sheet.mapIdx (fun i v =>
      if i < ss.length then { v with is_valid := false } else v) }

/-- `css_style_declaration_replace`: grow `dest` to `src.length` if
needed, then overwrite every slot that is valid in `src`. -/
def cssStyleDeclarationReplace (dest src : StyleDecl) : StyleDecl :=
  let dest :=
    if src.length > dest.length then
      { sheet := clearValidRange
          (dest.sheet ++ List.replicate (src.length - dest.sheet.length) zeroVal)
          dest.length (src.length - 1),
        length := src.length }
    else dest
  let newSheet := (List.range src.length).foldl
    (fun sheet i =>
      if (src.sheet.getD i zeroVal).is_valid then
        sheet.set i (unitValueMerge (src.sheet.getD i zeroVal))
      else sheet)
    dest.sheet
  { dest with sheet := newSheet }

/-- `css_get_computed_style`: compute (or fetch) the cached
declaration, then clear and replace the caller's output
declaration. -/
def cssGetComputedStyle (st : CssState) (s : Selector) (out : StyleDecl) :
    CssState × StyleDecl :=
  match cssGetComputedStyleWithCache st s with
  | (st', d) => (st', cssStyleDeclarationReplace (cssStyleDeclarationClear out) d)

/-! ## Concrete scenarios -/

/-- A parsed green color value (`CSS_COLOR_VALUE` = 7). -/
def greenVal : StyleVal := ⟨true, 7, 1⟩

/-- A parsed black color value. -/
def blackVal : StyleVal := ⟨true, 7, 2⟩

/-- Rule body `{ color: green }` with `color` at property key 0. -/
def declGreen : StyleDecl := ⟨[greenVal], 1⟩

/-- Rule body `{ color: black }` with `color` at property key 0. -/
def declBlack : StyleDecl := ⟨[blackVal], 1⟩

/-- Fallback for `Option.getD` on parses that are known to succeed. -/
def dummySel : Selector := ⟨0, 0, 0, 0, []⟩

/-- The library state of scenario C3: one property registered
(`color`, key 0), rules `section article p { color: green }` then
`p { color: black }` added. -/
def c3state : CssState :=
  cssAddStyleSheet
    (cssAddStyleSheet ⟨[], [], 1⟩
      ((cssSelectorCreate (str "section article p") 1).getD dummySel) declGreen)
    ((cssSelectorCreate (str "p") 2).getD dummySel) declBlack

/-- Query selector `section article p`. -/
def c3q1 : Selector := (cssSelectorCreate (str "section article p") 3).getD dummySel

/-- Query selector `article p`. -/
def c3q2 : Selector := (cssSelectorCreate (str "article p") 4).getD dummySel

/-- An externally built rule body that sets property key 1 — equal to
the declaration length a fresh computed declaration will have when the
property count is 1 (the C1 failing input). -/
def c1decl : StyleDecl := ⟨[zeroVal, ⟨true, 4, 42⟩], 2⟩

/-- The library state of the C1 failing input: property count 1, one
rule `p { <key 1>: 42 }`. -/
def c1state : CssState :=
  cssAddStyleSheet ⟨[], [], 1⟩ ((cssSelectorCreate (str "p") 1).getD dummySel) c1decl

/-- Query selector `p` for the C1 failing input. -/
def c1q : Selector := (cssSelectorCreate (str "p") 2).getD dummySel

/-! ## Decoding full names

`fullname` is claimed to determine the node's content uniquely; the
decoder below inverts the construction for names built from
separator-free, non-empty components (which the selector lexer's
identifier character set guarantees). -/

/-- Characters that are not one of the three component separators. -/
def notSep (c : Char) : Bool := ¬(c = '#' ∨ c = '.' ∨ c = ':')

/-- Split a run of `sep`-prefixed segments off the front of a
string. -/
def parseSegs (sep : Char) : Str → List Str × Str
  | [] => ([], [])
  | c :: rest =>
    if c = sep then
      ((rest.takeWhile notSep) :: (parseSegs sep (rest.dropWhile notSep)).1,
        (parseSegs sep (rest.dropWhile notSep)).2)
    else ([], c :: rest)
termination_by s => s.length
decreasing_by
  all_goals
    simp_wf
    have hle : ∀ (l : List Char), (List.dropWhile notSep l).length ≤ l.length := by
      intro l
      induction l with
      | nil => simp
      | cons a as ih =>
        rw [List.dropWhile_cons]
        split
        · exact Nat.le_trans ih (Nat.le_succ _)
        · exact Nat.le_refl _
    exact Nat.lt_succ_of_le (hle rest)

/-- Split an optional `#id` component off the front. -/
def decodeAfterType (r1 : Str) : Option Str × Str :=
  match r1 with
  | [] => (none, [])
  | c :: rest =>
    if c = '#' then (some (rest.takeWhile notSep), rest.dropWhile notSep)
    else (none, c :: rest)

/-- Invert `fullnameOf`: leading type run, optional `#id`, `.` and `:`
segment runs. -/
def decodeNode (s : Str) : Option Str × Option Str × List Str × List Str :=
  ((if s.takeWhile notSep = [] then none else some (s.takeWhile notSep)),
    (decodeAfterType (s.dropWhile notSep)).1,
    (parseSegs '.' (decodeAfterType (s.dropWhile notSep)).2).1,
    (parseSegs ':'
      (parseSegs '.' (decodeAfterType (s.dropWhile notSep)).2).2).1)

/-- A non-empty, separator-free component string. -/
def WfStr (s : Str) : Prop := s ≠ [] ∧ ∀ c ∈ s, notSep c = true

/-- All components of a node are well-formed (the selector parser only
stores non-empty identifier strings). -/
def WfSNode (n : SNode) : Prop :=
  (∀ t, n.typ = some t → WfStr t) ∧ (∀ d, n.id = some d → WfStr d) ∧
    (∀ c ∈ n.classes, WfStr c) ∧ (∀ s ∈ n.status, WfStr s)

/-- The node carries at least one saved component. -/
def hasComponent (n : SNode) : Prop :=
  n.typ.isSome ∨ n.id.isSome ∨ n.classes ≠ [] ∨ n.status ≠ []

/-- The loop invariant of `css_selector_create`: the component buffer
holds only identifier (hence separator-free) characters, a node only
exists while saving, the node under construction and all completed
nodes are well-formed, completed nodes carry the recomputed rank and
canonical full name, and — as long as no component save has failed —
the accumulated selector rank accounts exactly for the content of the
completed nodes plus the node under construction. -/
def ParserInv (st : PSt) : Prop :=
  (∀ c ∈ st.name, notSep c = true) ∧
  (st.saving = false → st.cur = none) ∧
  WfSNode (st.cur.getD emptySNode) ∧
  (∀ n ∈ st.nodes, WfSNode n ∧ n.rank = nodeRankOf n ∧
    n.fullname = some (fullnameOf n)) ∧
  (st.err = false →
    st.rank = (st.nodes.map nodeRankOf).sum + nodeRankOf (st.cur.getD emptySNode))

/-- The node produced by parsing the selector `a`. -/
def aNode : SNode := ⟨some ['a'], none, [], [], some ['a'], 1⟩

/-- The selector produced by parsing `a` with a given batch number
(DJB hash of "a" is 177670). -/
def aSel (b : Nat) : Selector := ⟨1, b, 1, 177670, [aNode]⟩

/-! ## Claim theorems (registries, declarations, valdef compiler, ordering) -/

theorem lexGt_irrefl (a : StyleRule) : ¬ LexGt a a := by
  unfold LexGt; omega

/-- C2: for every query, the output rule list built by
`StyleLink_GetStyleSheets` is kept sorted by `(rank desc, batch_num
desc)`: whenever a collected rule strictly beats another in this
lexicographic order it precedes it in the output list, and rules whose
`(rank, batch_num)` keys are equal keep their insertion order. -/
theorem C2_rule_order (rs : List StyleRule) :
    (∀ (i j : Fin (StyleLink_GetStyleSheets rs []).length),
      LexGt ((StyleLink_GetStyleSheets rs []).get i)
            ((StyleLink_GetStyleSheets rs []).get j) → i < j) ∧
    (∀ k b, (StyleLink_GetStyleSheets rs []).filter (sameKey k b) =
      rs.filter (sameKey k b)) := by
  have hsorted : RuleListSorted (StyleLink_GetStyleSheets rs []) :=
    getStyleSheets_sorted rs [] (by simp [RuleListSorted])
  constructor
  · intro i j hij
    rcases Nat.lt_trichotomy i j with h | h | h
    · exact h
    · exact absurd hij (by rw [Fin.ext (by omega : (i : Nat) = (j : Nat))]; exact lexGt_irrefl _)
    · have := (List.pairwise_iff_get.mp hsorted) j i h
      exact absurd hij this
  · intro k b
    have := getStyleSheets_filter rs [] k b (by simp [RuleListSorted])
    simpa using this

theorem C2_rule_order_witness :
    ((⟨0, by decide⟩ : Fin (StyleLink_GetStyleSheets
        [⟨3, 9, []⟩, ⟨5, 1, []⟩] []).length) <
      ⟨1, by decide⟩) ∧
    (StyleLink_GetStyleSheets [⟨3, 9, []⟩, ⟨5, 1, []⟩] []).filter (sameKey 3 9) =
      [⟨3, 9, []⟩] :=
  ⟨(C2_rule_order [⟨3, 9, []⟩, ⟨5, 1, []⟩]).1 _ _ (by decide),
   by rw [(C2_rule_order [⟨3, 9, []⟩, ⟨5, 1, []⟩]).2 3 9]; decide⟩

/-- C9: `css_register_value_type_alias` accepts an alias only when the
alias string is a registered keyword whose key is 0; whenever the
keyword lookup is nonzero (including the `-1` absence sentinel) it
returns `-1` and leaves the alias dict unchanged. -/
theorem C9_alias_guard (keywords : Keywords) (d : List (Str × Str)) (tn a : Str) :
    (cssGetKeywordKey keywords a ≠ 0 →
      cssRegisterValueTypeAlias keywords d tn a = (d, -1)) ∧
    (cssGetKeywordKey keywords a = 0 →
      cssRegisterValueTypeAlias keywords d tn a = dictAdd d a tn) := by
  constructor <;> intro h <;> simp [cssRegisterValueTypeAlias, h]

theorem C9_alias_guard_witness :
    cssRegisterValueTypeAlias [(str "none", 0), (str "auto", 1)] []
      (str "length") (str "auto") = ([], -1) :=
  (C9_alias_guard [(str "none", 0), (str "auto", 1)] [] (str "length")
    (str "auto")).1 (by decide)

/-- C10: a declaration returned by `css_style_declaration_create` has
`length` equal to the current property count, and every allocated slot
(indices 0 up to and including `length`) is zeroed: type `CSS_NO_VALUE`
and not valid. -/
theorem C10_decl_create (count : Nat) :
    (css_style_declaration_create count).length = count ∧
    ∀ i ≤ count, (css_style_declaration_create count).sheet[i]? =
      some { is_valid := false, vtype := CSS_NO_VALUE, payload := 0 } := by
  refine ⟨rfl, fun i hi => ?_⟩
  have : i < count + 1 := by omega
  simp [css_style_declaration_create, zeroVal, CSS_NO_VALUE,
    List.getElem?_replicate, this]

theorem C10_decl_create_witness :
    (css_style_declaration_create 3).length = 3 ∧
    (css_style_declaration_create 3).sheet[3]? =
      some { is_valid := false, vtype := CSS_NO_VALUE, payload := 0 } :=
  ⟨(C10_decl_create 3).1, (C10_decl_create 3).2 3 (by decide)⟩

/-- C6 (code bug): `css_register_property_with_key` tests the result of
`malloc` with `if (prop) { return -1; }` — inverted — so with the
allocation succeeding it always returns `-1`, registers nothing in the
property map and never increments the property count; no registration
can ever succeed, contradicting the claimed post-conditions of
`register_property`. -/
theorem C6_register_property_broken (st : PropState) (key : Nat)
    (name syn initial : Str) :
    (cssRegisterPropertyWithKey st key name syn initial).1 = -1 ∧
    (cssRegisterPropertyWithKey st key name syn initial).2.property_map =
      st.property_map ∧
    (cssRegisterPropertyWithKey st key name syn initial).2.count = st.count := by
  refine ⟨rfl, ?_, ?_⟩ <;>
    (simp only [cssRegisterPropertyWithKey]; split <;> rfl)

/-- C8 (code bug): `css_compile_valdef` returns the success code 0 on
both syntax strings — including `auto | <nonsense>` — because the
parser dispatch loop never invokes the data-type handler, so the
unknown-data-type check in `css_valdef_parser_commit` is unreachable
and no not-found error can be produced. -/
theorem C8_compile_valdef_no_error :
    cssCompileValdef (str "auto | <length> | <percentage>") = 0 ∧
    cssCompileValdef (str "auto | <nonsense>") = 0 := by
  constructor <;> decide


/-! ### C4: the selector-name expansion -/

theorem joinWith_cons (sep : Char) (x : Str) (rest : List Str) :
    joinWith sep (x :: rest) = (sep :: x) ++ joinWith sep rest := by
  simp [joinWith]

theorem joinWith_singleton (sep : Char) (x : Str) :
    joinWith sep [x] = sep :: x := by
  simp [joinWith]

/-- Every non-empty subset (in index order) of the remaining items is
emitted by the `chainExt` recursion. -/
theorem chainExt_mem (sep : Char) {sub items : List Str}
    (h : sub.Sublist items) :
    ∀ pfx, sub ≠ [] → (pfx ++ joinWith sep sub) ∈ chainExt sep pfx items := by
  induction h with
  | slnil => exact fun pfx hne => absurd rfl hne
  | cons x _ ih =>
    intro pfx hne
    exact List.mem_append_right _ (ih pfx hne)
  | cons₂ x h ih =>
    rename_i l₁ l₂
    intro pfx _
    cases l₁ with
    | nil =>
      rw [joinWith_singleton]
      exact List.mem_append_left _ (List.mem_cons_self _ _)
    | cons y ys =>
      have hmem := ih (pfx ++ sep :: x) (by simp)
      have heq : pfx ++ joinWith sep (x :: y :: ys) =
          (pfx ++ sep :: x) ++ joinWith sep (y :: ys) := by
        rw [joinWith_cons, List.append_assoc]
      rw [heq]
      exact List.mem_append_left _ (List.mem_cons_of_mem _ hmem)

/-- Every non-empty class subset extends the current name in
`classChain`. -/
theorem classChain_mem1 (status : List Str) {cs classes : List Str}
    (h : cs.Sublist classes) :
    ∀ pfx, cs ≠ [] → (pfx ++ joinWith '.' cs) ∈ classChain status pfx classes := by
  induction h with
  | slnil => exact fun pfx hne => absurd rfl hne
  | cons x _ ih =>
    intro pfx hne
    exact List.mem_append_right _ (ih pfx hne)
  | cons₂ x h ih =>
    rename_i l₁ l₂
    intro pfx _
    cases l₁ with
    | nil =>
      rw [joinWith_singleton]
      exact List.mem_append_left _ (List.mem_cons_self _ _)
    | cons y ys =>
      have hmem := ih (pfx ++ '.' :: x) (by simp)
      have heq : pfx ++ joinWith '.' (x :: y :: ys) =
          (pfx ++ '.' :: x) ++ joinWith '.' (y :: ys) := by
        rw [joinWith_cons, List.append_assoc]
      rw [heq]
      exact List.mem_append_left _
        (List.mem_cons_of_mem _ (List.mem_append_left _ hmem))

/-- Every non-empty class subset further extended by a non-empty status
subset is emitted by `classChain`. -/
theorem classChain_mem2 (status : List Str) {cs classes : List Str}
    (h : cs.Sublist classes) {ss : List Str} (hss : ss.Sublist status)
    (hssne : ss ≠ []) :
    ∀ pfx, cs ≠ [] →
      (pfx ++ joinWith '.' cs ++ joinWith ':' ss) ∈
        classChain status pfx classes := by
  induction h with
  | slnil => exact fun pfx hne => absurd rfl hne
  | cons x _ ih =>
    intro pfx hne
    exact List.mem_append_right _ (ih pfx hne)
  | cons₂ x h ih =>
    rename_i l₁ l₂
    intro pfx _
    cases l₁ with
    | nil =>
      rw [joinWith_singleton]
      have hmem := chainExt_mem ':' hss (pfx ++ '.' :: x) hssne
      exact List.mem_append_left _
        (List.mem_cons_of_mem _ (List.mem_append_right _ hmem))
    | cons y ys =>
      have hmem := ih (pfx ++ '.' :: x) (by simp)
      have heq : pfx ++ joinWith '.' (x :: y :: ys) ++ joinWith ':' ss =
          (pfx ++ '.' :: x) ++ joinWith '.' (y :: ys) ++ joinWith ':' ss := by
        rw [joinWith_cons]
        simp [List.append_assoc]
      rw [heq]
      exact List.mem_append_left _
        (List.mem_cons_of_mem _ (List.mem_append_left _ hmem))

/-- Every non-empty class subset is emitted by the `LEVEL_CLASS`
case. -/
theorem classLevel_mem1 (status : List Str) {cs classes : List Str}
    (h : cs.Sublist classes) :
    ∀ pfx, cs ≠ [] → (pfx ++ joinWith '.' cs) ∈ classLevel status pfx classes := by
  induction h with
  | slnil => exact fun pfx hne => absurd rfl hne
  | cons x _ ih =>
    intro pfx hne
    exact List.mem_append_right _ (ih pfx hne)
  | cons₂ x h ih =>
    rename_i l₁ l₂
    intro pfx _
    cases l₁ with
    | nil =>
      rw [joinWith_singleton]
      exact List.mem_append_left _ (List.mem_cons_self _ _)
    | cons y ys =>
      have hmem := classChain_mem1 status h (pfx ++ '.' :: x) (by simp)
      have heq : pfx ++ joinWith '.' (x :: y :: ys) =
          (pfx ++ '.' :: x) ++ joinWith '.' (y :: ys) := by
        rw [joinWith_cons, List.append_assoc]
      rw [heq]
      exact List.mem_append_left _
        (List.mem_cons_of_mem _
          (List.mem_append_left _ (List.mem_append_left _ hmem)))

/-- Every non-empty class subset with a non-empty status subset is
emitted by the `LEVEL_CLASS` case. -/
theorem classLevel_mem2 (status : List Str) {cs classes : List Str}
    (h : cs.Sublist classes) {ss : List Str} (hss : ss.Sublist status)
    (hssne : ss ≠ []) :
    ∀ pfx, cs ≠ [] →
      (pfx ++ joinWith '.' cs ++ joinWith ':' ss) ∈
        classLevel status pfx classes := by
  induction h with
  | slnil => exact fun pfx hne => absurd rfl hne
  | cons x _ ih =>
    intro pfx hne
    exact List.mem_append_right _ (ih pfx hne)
  | cons₂ x h ih =>
    rename_i l₁ l₂
    intro pfx _
    cases l₁ with
    | nil =>
      rw [joinWith_singleton]
      have hmem := chainExt_mem ':' hss (pfx ++ '.' :: x) hssne
      exact List.mem_append_left _
        (List.mem_cons_of_mem _
          (List.mem_append_left _ (List.mem_append_right _ hmem)))
    | cons y ys =>
      have hmem := classChain_mem2 status h hss hssne (pfx ++ '.' :: x) (by simp)
      have heq : pfx ++ joinWith '.' (x :: y :: ys) ++ joinWith ':' ss =
          (pfx ++ '.' :: x) ++ joinWith '.' (y :: ys) ++ joinWith ':' ss := by
        rw [joinWith_cons]
        simp [List.append_assoc]
      rw [heq]
      exact List.mem_append_left _
        (List.mem_cons_of_mem _
          (List.mem_append_left _ (List.mem_append_left _ hmem)))

/-- C4 (counterexample): the name expansion produced by
`css_selector_node_get_name_list` for the node
`{type=tv, id=m, classes={a,b}, status={h}}` does not contain the
wildcard `"*"` — the wildcard is appended separately by
`css_query_selector_from_group`, not by the expansion. -/
theorem C4_wildcard_not_in_expansion :
    str "*" ∉ cssSelectorNodeGetNameList tvNode := by decide

/-- C4 (amended): for every simple-selector node with a type and an id,
the name expansion contains the bare type, type+id, type+id combined
with every non-empty subset of the (sorted) classes, and each such
combination combined with every non-empty subset of the states; the
wildcard `"*"` is not produced by the expansion itself but is appended
to the candidate list by the group query
(`css_query_selector_from_group`). -/
theorem C4_expansion (n : SNode) (t d : Str)
    (ht : n.typ = some t) (hd : n.id = some d) :
    t ∈ cssSelectorNodeGetNameList n ∧
    (t ++ '#' :: d) ∈ cssSelectorNodeGetNameList n ∧
    (∀ cs, cs ≠ [] → cs.Sublist n.classes →
      ((t ++ '#' :: d) ++ joinWith '.' cs) ∈ cssSelectorNodeGetNameList n) ∧
    (∀ cs ss, cs ≠ [] → cs.Sublist n.classes → ss ≠ [] → ss.Sublist n.status →
      ((t ++ '#' :: d) ++ joinWith '.' cs ++ joinWith ':' ss) ∈
        cssSelectorNodeGetNameList n) ∧
    str "*" ∈ queryTargetNames n := by
  refine ⟨?_, ?_, ?_, ?_, ?_⟩
  · simp only [cssSelectorNodeGetNameList, collectTYPE, ht, List.mem_append,
      List.mem_cons]
    tauto
  · simp only [cssSelectorNodeGetNameList, collectTYPE, collectID, ht, hd,
      List.mem_append, List.mem_cons]
    tauto
  · intro cs hne hsub
    have hmem := classLevel_mem1 n.status hsub (t ++ '#' :: d) hne
    simp only [cssSelectorNodeGetNameList, collectTYPE, collectID, ht, hd,
      List.mem_append, List.mem_cons]
    tauto
  · intro cs ss hne hsub hssne hsssub
    have hmem := classLevel_mem2 n.status hsub hsssub hssne (t ++ '#' :: d) hne
    simp only [cssSelectorNodeGetNameList, collectTYPE, collectID, ht, hd,
      List.mem_append, List.mem_cons]
    tauto
  · simp [queryTargetNames]

theorem C4_expansion_witness :
    str "tv" ∈ cssSelectorNodeGetNameList tvNode ∧
    (str "tv" ++ '#' :: str "m") ∈ cssSelectorNodeGetNameList tvNode ∧
    ((str "tv" ++ '#' :: str "m") ++ joinWith '.' [str "a"]) ∈
      cssSelectorNodeGetNameList tvNode ∧
    ((str "tv" ++ '#' :: str "m") ++ joinWith '.' [str "b"]) ∈
      cssSelectorNodeGetNameList tvNode ∧
    ((str "tv" ++ '#' :: str "m") ++ joinWith '.' [str "a", str "b"]) ∈
      cssSelectorNodeGetNameList tvNode ∧
    ((str "tv" ++ '#' :: str "m") ++ joinWith '.' [str "a"] ++
      joinWith ':' [str "h"]) ∈ cssSelectorNodeGetNameList tvNode ∧
    ((str "tv" ++ '#' :: str "m") ++ joinWith '.' [str "a", str "b"] ++
      joinWith ':' [str "h"]) ∈ cssSelectorNodeGetNameList tvNode ∧
    str "*" ∈ queryTargetNames tvNode := by
  have h := C4_expansion tvNode (str "tv") (str "m") rfl rfl
  exact ⟨h.1, h.2.1,
    h.2.2.1 [str "a"] (by decide) (by decide),
    h.2.2.1 [str "b"] (by decide) (by decide),
    h.2.2.1 [str "a", str "b"] (by decide) (by decide),
    h.2.2.2.1 [str "a"] [str "h"] (by decide) (by decide) (by decide) (by decide),
    h.2.2.2.1 [str "a", str "b"] [str "h"] (by decide) (by decide) (by decide)
      (by decide),
    h.2.2.2.2⟩



/-! ### C7, C3 and C1: cache flushing, descendant queries, merging -/

/-- C7: immediately after any `css_add_style_sheet` call the
computed-style cache is empty — `dict_empty(css.cache, NULL)` runs
before the selector is resolved, whether or not a rule list is
produced, and nothing on the insertion path repopulates the cache. -/
theorem C7_cache_flushed (st : CssState) (sel : Selector) (style : StyleDecl) :
    (cssAddStyleSheet st sel style).cache = [] := rfl

/-- C3: with rules `section article p { color: green }` (batch 1) and
`p { color: black }` (batch 2) in the trie, querying
`section article p` collects both rules with the rank-3 rule first and
computes color green, while querying `article p` collects only the
black rule (the `section` link is only reachable through an ancestor
name present in the `parents` maps along the chain) and computes color
black. -/
theorem C3_descendant_semantics :
    (cssQuerySelector c3state c3q1).map (fun r => (r.rank, r.batch_num)) =
      [(3, 1), (1, 2)] ∧
    (cssGetComputedStyleWithCache c3state c3q1).2.sheet[0]? =
      some (unitValueMerge greenVal) ∧
    (cssQuerySelector c3state c3q2).map (fun r => (r.rank, r.batch_num)) =
      [(1, 2)] ∧
    (cssGetComputedStyleWithCache c3state c3q2).2.sheet[0]? =
      some (unitValueMerge blackVal) := by
  refine ⟨by decide, by decide, by decide, by decide⟩

/-- C1 (code bug): `css_style_declaration_merge_properties` grows the
declaration only when `key > ss->length` (strictly), so a rule
property whose key equals the declaration's current length — here key
1 against the length-1 declaration created for a property count of
1 — is written into the hidden `calloc` padding cell without growing
`length`.  The computed declaration keeps length 1, and the value is
invisible to every consumer that iterates the logical length:
`css_get_computed_style` (clear + replace) returns a declaration with
no valid slot at all, losing the highest-priority value the claim says
must be stored. -/
theorem C1_growth_off_by_one :
    (cssGetComputedStyleWithCache c1state c1q).2.length = 1 ∧
    (cssGetComputedStyleWithCache c1state c1q).2.sheet =
      [zeroVal, ⟨true, 4, 42⟩] ∧
    ((cssGetComputedStyle c1state c1q
      (css_style_declaration_create 1)).2.sheet.all (fun v => !v.is_valid)) =
      true := by
  refine ⟨by decide, by decide, by decide⟩



/-! ### C5: selector specificity and full-name injectivity -/

theorem sortedAdd_mem {l : List Str} {s x : Str}
    (h : x ∈ (strlistSortedAdd l s).1) : x ∈ l ∨ x = s := by
  induction l with
  | nil =>
    simp [strlistSortedAdd] at h
    exact Or.inr h
  | cons y ys ih =>
    simp only [strlistSortedAdd] at h
    split at h
    · exact Or.inl h
    · split at h
      · rcases List.mem_cons.mp h with rfl | h'
        · exact Or.inr rfl
        · exact Or.inl h'
      · rcases List.mem_cons.mp h with rfl | h'
        · exact Or.inl (List.mem_cons_self _ _)
        · rcases ih h' with h'' | rfl
          · exact Or.inl (List.mem_cons_of_mem _ h'')
          · exact Or.inr rfl

theorem sortedAdd_len {l : List Str} {s : Str}
    (h : (strlistSortedAdd l s).2 = true) :
    (strlistSortedAdd l s).1.length = l.length + 1 := by
  induction l with
  | nil => simp [strlistSortedAdd]
  | cons y ys ih =>
    by_cases h1 : s = y
    · simp [strlistSortedAdd, h1] at h
    · by_cases h2 : strLt s y = true
      · simp [strlistSortedAdd, h1, h2]
      · simp only [strlistSortedAdd, if_neg h1, if_neg h2] at h ⊢
        rw [List.length_cons, ih h]
        simp

theorem sortedAdd_ne_nil (l : List Str) (s : Str) :
    (strlistSortedAdd l s).1 ≠ [] := by
  cases l with
  | nil => simp [strlistSortedAdd]
  | cons y ys =>
    simp only [strlistSortedAdd]
    split
    · simp
    · split <;> simp

/-- The outcome of a `SelectorNode_Save` call: either it fails and
leaves the node untouched, or it succeeds with a positive rank that
accounts exactly for the added component, preserves well-formedness
when the buffered name is well-formed, and leaves a component on the
node. -/
theorem save_spec (nd : SNode) (name : Str) (typ : Char) :
    SelectorNode_Save nd name typ = (nd, 0) ∨
    (0 < (SelectorNode_Save nd name typ).2 ∧
      nodeRankOf (SelectorNode_Save nd name typ).1 =
        nodeRankOf nd + (SelectorNode_Save nd name typ).2 ∧
      (WfStr name → WfSNode nd → WfSNode (SelectorNode_Save nd name typ).1) ∧
      hasComponent (SelectorNode_Save nd name typ).1) := by
  unfold SelectorNode_Save
  split
  · exact Or.inl rfl
  split
  · -- type
    split
    · exact Or.inl rfl
    · refine Or.inr ⟨by simp [TYPE_RANK], ?_, ?_, ?_⟩
      · simp only [nodeRankOf]
        rename_i hns h0 hts
        simp only [hts, TYPE_RANK, Bool.not_eq_true] at *
        simp [hts]
        ring
      · rintro hwf ⟨hwt, hwd, hwc, hws⟩
        exact ⟨fun t ht => by cases ht; exact hwf, hwd, hwc, hws⟩
      · simp [hasComponent]
  split
  · -- status
    split
    · refine Or.inr ⟨by simp [PCLASS_RANK], ?_, ?_, ?_⟩
      · rename_i hns h0 hcolon hok
        simp only [nodeRankOf, PCLASS_RANK]
        rw [sortedAdd_len hok]
        ring
      · rintro hwf ⟨hwt, hwd, hwc, hws⟩
        refine ⟨hwt, hwd, hwc, ?_⟩
        intro s hs
        rcases sortedAdd_mem hs with h' | rfl
        · exact hws s h'
        · exact hwf
      · exact Or.inr (Or.inr (Or.inr (sortedAdd_ne_nil _ _)))
    · exact Or.inl rfl
  split
  · -- class
    split
    · refine Or.inr ⟨by simp [CLASS_RANK], ?_, ?_, ?_⟩
      · rename_i hns h0 hcolon hdot hok
        simp only [nodeRankOf, CLASS_RANK]
        rw [sortedAdd_len hok]
        ring
      · rintro hwf ⟨hwt, hwd, hwc, hws⟩
        refine ⟨hwt, hwd, ?_, hws⟩
        intro s hs
        rcases sortedAdd_mem hs with h' | rfl
        · exact hwc s h'
        · exact hwf
      · exact Or.inr (Or.inr (Or.inl (sortedAdd_ne_nil _ _)))
    · exact Or.inl rfl
  split
  · -- id
    split
    · exact Or.inl rfl
    · refine Or.inr ⟨by simp [ID_RANK], ?_, ?_, ?_⟩
      · simp only [nodeRankOf]
        rename_i hns h0 hcolon hdot hhash hid
        simp only [hid, Bool.not_eq_true] at *
        simp [hid, ID_RANK]
        ring
      · rintro hwf ⟨hwt, hwd, hwc, hws⟩
        exact ⟨hwt, fun d hd => by cases hd; exact hwf, hwc, hws⟩
      · exact Or.inr (Or.inl (by simp))
  · exact Or.inl rfl

theorem update_preserves (n : SNode) :
    (css_selector_node_update n).typ = n.typ ∧
    (css_selector_node_update n).id = n.id ∧
    (css_selector_node_update n).classes = n.classes ∧
    (css_selector_node_update n).status = n.status ∧
    (css_selector_node_update n).rank = nodeRankOf n :=
  ⟨rfl, rfl, rfl, rfl, rfl⟩

theorem nodeRankOf_update (n : SNode) :
    nodeRankOf (css_selector_node_update n) = nodeRankOf n := rfl

theorem fullnameOf_update (n : SNode) :
    fullnameOf (css_selector_node_update n) = fullnameOf n := rfl

theorem wf_update {n : SNode} (h : WfSNode n) :
    WfSNode (css_selector_node_update n) := h

theorem sum_map_len_pos {l : List Str} (h : l ≠ []) :
    0 < (l.map (fun c => c.length + 1)).sum := by
  cases l with
  | nil => exact absurd rfl h
  | cons x xs => simp only [List.map_cons, List.sum_cons]; omega

theorem hasComponent_updLen {n : SNode} (h : hasComponent n) : 0 < updLen n := by
  unfold updLen
  rcases h with h | h | h | h
  · rcases Option.isSome_iff_exists.mp h with ⟨t, ht⟩
    simp [ht]
  · rcases Option.isSome_iff_exists.mp h with ⟨d, hd⟩
    simp [hd]
  · have := sum_map_len_pos h
    omega
  · have := sum_map_len_pos h
    omega

theorem update_fullname {n : SNode} (h : 0 < updLen n) :
    (css_selector_node_update n).fullname = some (fullnameOf n) := by
  simp [css_selector_node_update, h]



theorem save_name_ne_nil {nd : SNode} {name : Str} {typ : Char}
    (h : 0 < (SelectorNode_Save nd name typ).2) : name ≠ [] := by
  intro hn
  subst hn
  simp [SelectorNode_Save] at h

/-- Consequences of a successful `SelectorNode_Save`. -/
theorem save_pos {nd : SNode} {name : Str} {typ : Char}
    (h : 0 < (SelectorNode_Save nd name typ).2) :
    nodeRankOf (SelectorNode_Save nd name typ).1 =
      nodeRankOf nd + (SelectorNode_Save nd name typ).2 ∧
    ((∀ c ∈ name, notSep c = true) → WfSNode nd →
      WfSNode (SelectorNode_Save nd name typ).1) ∧
    hasComponent (SelectorNode_Save nd name typ).1 := by
  rcases save_spec nd name typ with heq | ⟨_, h1, h2, h3⟩
  · rw [heq] at h
    exact absurd h (by simp)
  · exact ⟨h1, fun hn hw => h2 ⟨save_name_ne_nil h, hn⟩ hw, h3⟩

theorem wf_emptySNode : WfSNode emptySNode := by
  refine ⟨?_, ?_, ?_, ?_⟩ <;> intro x hx <;> simp [emptySNode] at hx

theorem nodeRankOf_emptySNode : nodeRankOf emptySNode = 0 := rfl

theorem ident_notSep {c : Char} (h : identChar c = true) : notSep c = true := by
  simp only [notSep, decide_eq_true_eq]
  rintro (rfl | rfl | rfl) <;> exact absurd h (by decide)

theorem pAlloc_inv {st : PSt} (h : ParserInv st) : ParserInv (pAlloc st) := by
  obtain ⟨hname, hsc, hwf, hnodes, hrank⟩ := h
  unfold pAlloc
  split
  · rename_i hc
    have hcn : st.cur = none := Option.isNone_iff_eq_none.mp hc.1
    split
    · exact ⟨hname, hsc, hwf, hnodes, hrank⟩
    · refine ⟨hname, ?_, wf_emptySNode, hnodes, ?_⟩
      · intro hf
        rw [hc.2] at hf
        cases hf
      · intro he
        have := hrank he
        simpa [hcn] using this
  · exact ⟨hname, hsc, hwf, hnodes, hrank⟩

theorem pSepChar_inv {st : PSt} (c : Char) (h : ParserInv st) :
    ParserInv (pSepChar st c) := by
  obtain ⟨hname, hsc, hwf, hnodes, hrank⟩ := h
  unfold pSepChar
  split
  · refine ⟨hname, ?_, hwf, hnodes, hrank⟩
    intro hf
    simp at hf
  · split
    · rename_i hsv
      obtain ⟨hr, hw, _⟩ := save_pos hsv
      refine ⟨?_, ?_, hw hname hwf, hnodes, ?_⟩
      · simp
      · intro hf
        simp at hf
      · intro he
        have := hrank he
        simp only [Option.getD_some]
        rw [hr]
        omega
    · refine ⟨?_, ?_, wf_emptySNode, hnodes, ?_⟩
      · simp
      · intro hf
        simp at hf
      · intro he
        simp at he

theorem pWS_inv {st : PSt} (h : ParserInv st) : ParserInv (pWS st) := by
  obtain ⟨hname, hsc, hwf, hnodes, hrank⟩ := h
  unfold pWS
  split
  · rename_i hs
    have hcn : st.cur = none := hsc (by revert hs; cases st.saving <;> simp)
    refine ⟨by simp, fun _ => rfl, wf_emptySNode, hnodes, ?_⟩
    intro he
    have := hrank he
    simpa [hcn] using this
  · split
    · rename_i hsv
      obtain ⟨hr, hw, hcomp⟩ := save_pos hsv
      refine ⟨by simp, fun _ => rfl, wf_emptySNode, ?_, ?_⟩
      · intro n hn
        rcases List.mem_append.mp hn with hn' | hn'
        · exact hnodes n hn'
        · rcases List.mem_singleton.mp hn' with rfl
          refine ⟨wf_update (hw hname hwf), rfl, ?_⟩
          rw [update_fullname (hasComponent_updLen hcomp), fullnameOf_update]
      · intro he
        have := hrank he
        simp only [List.map_append, List.map_cons, List.map_nil,
          List.sum_append, List.sum_cons, List.sum_nil, Option.getD_none,
          nodeRankOf_emptySNode, nodeRankOf_update]
        rw [hr]
        omega
    · refine ⟨by simp, fun _ => rfl, wf_emptySNode, hnodes, ?_⟩
      intro he
      cases he

theorem pIdent_inv {st : PSt} (c : Char) (hc : identChar c = true)
    (h : ParserInv st) : ParserInv (pIdent st c) := by
  obtain ⟨hname, hsc, hwf, hnodes, hrank⟩ := h
  have hname' : ∀ x ∈ st.name ++ [c], notSep x = true := by
    intro x hx
    rcases List.mem_append.mp hx with hx' | hx'
    · exact hname x hx'
    · rcases List.mem_singleton.mp hx' with rfl
      exact ident_notSep hc
  unfold pIdent
  split
  · refine ⟨hname', ?_, hwf, hnodes, hrank⟩
    intro hf
    simp at hf
  · rename_i hs
    refine ⟨hname', ?_, hwf, hnodes, hrank⟩
    intro hf
    exact hsc hf

theorem pStep_inv {st : PSt} (c : Char) (h : ParserInv st) :
    ParserInv (pStep st c) := by
  unfold pStep
  split
  · exact h
  · have h1 := pAlloc_inv h
    split
    · exact h1
    · split
      · exact pSepChar_inv c h1
      · split
        · exact pWS_inv h1
        · split
          · rename_i hid
            exact pIdent_inv c hid h1
          · obtain ⟨a, b, d, e, f⟩ := h1
            exact ⟨a, b, d, e, f⟩

theorem pInit_inv : ParserInv pInit := by
  refine ⟨by simp [pInit], fun _ => rfl, wf_emptySNode, by simp [pInit], ?_⟩
  intro _
  simp [pInit, nodeRankOf_emptySNode]

theorem foldl_inv (cs : Str) : ∀ (st : PSt), ParserInv st →
    ParserInv (cs.foldl pStep st) := by
  induction cs with
  | nil => exact fun st h => h
  | cons c rest ih => exact fun st h => ih (pStep st c) (pStep_inv c h)



theorem map_sum_congr {l : List SNode}
    (h : ∀ n ∈ l, n.rank = nodeRankOf n) :
    (l.map (fun n => n.rank)).sum = (l.map nodeRankOf).sum := by
  induction l with
  | nil => rfl
  | cons x xs ih =>
    simp only [List.map_cons, List.sum_cons]
    rw [h x (List.mem_cons_self _ _),
      ih (fun n hn => h n (List.mem_cons_of_mem _ hn))]

/-- What `pFinish` guarantees about a returned selector: if no
component save ever failed, the selector rank accounts exactly for the
nodes' content ranks, and every node is well-formed with the
recomputed rank and canonical full name. -/
theorem pFinish_spec {st : PSt} (h : ParserInv st) (batch : Nat)
    {sel : Selector} {e : Bool} (hf : pFinish st batch = some (sel, e)) :
    (e = false → sel.rank = (sel.nodes.map nodeRankOf).sum) ∧
    (∀ n ∈ sel.nodes, WfSNode n ∧ n.rank = nodeRankOf n ∧
      n.fullname = some (fullnameOf n)) := by
  obtain ⟨hname, hsc, hwf, hnodes, hrank⟩ := h
  unfold pFinish mkSelector at hf
  split at hf
  · simp at hf
  · split at hf
    · split at hf
      · simp at hf
      · split at hf
        · rename_i hnofatal hsaving hdepth hsv
          obtain ⟨hr, hw, hcomp⟩ := save_pos hsv
          simp only [Option.some.injEq, Prod.mk.injEq] at hf
          obtain ⟨hsel, he⟩ := hf
          subst hsel
          subst he
          constructor
          · intro he
            have := hrank he
            simp only [List.map_append, List.map_cons, List.map_nil,
              List.sum_append, List.sum_cons, List.sum_nil, nodeRankOf_update]
            rw [hr]
            omega
          · intro n hn
            rcases List.mem_append.mp hn with hn' | hn'
            · exact hnodes n hn'
            · rcases List.mem_singleton.mp hn' with rfl
              refine ⟨wf_update (hw hname hwf), rfl, ?_⟩
              rw [update_fullname (hasComponent_updLen hcomp), fullnameOf_update]
        · simp only [Option.some.injEq, Prod.mk.injEq] at hf
          obtain ⟨hsel, he⟩ := hf
          subst hsel
          subst he
          refine ⟨?_, hnodes⟩
          intro he
          simp at he
    · rename_i hnofatal hsaving
      simp only [Option.some.injEq, Prod.mk.injEq] at hf
      obtain ⟨hsel, he⟩ := hf
      subst hsel
      subst he
      have hcn : st.cur = none := hsc (by revert hsaving; cases st.saving <;> simp)
      constructor
      · intro he
        have := hrank he
        simpa [hcn, nodeRankOf_emptySNode] using this
      · exact hnodes


/-- `takeWhile`/`dropWhile` split an append at the first failing
position. -/
theorem tw_append {p : Char → Bool} {a b : Str}
    (ha : ∀ c ∈ a, p c = true)
    (hb : ∀ x xs, b = x :: xs → p x = false) :
    (a ++ b).takeWhile p = a ∧ (a ++ b).dropWhile p = b := by
  induction a with
  | nil =>
    simp only [List.nil_append]
    cases b with
    | nil => simp
    | cons x xs =>
      rw [List.takeWhile_cons, List.dropWhile_cons]
      simp [hb x xs rfl]
  | cons c cs ih =>
    have hc := ha c (List.mem_cons_self _ _)
    have hrest := ih (fun y hy => ha y (List.mem_cons_of_mem _ hy))
    rw [List.cons_append, List.takeWhile_cons, List.dropWhile_cons]
    simp [hc, hrest.1, hrest.2]

theorem joinWith_head_sep {sep : Char} {items : List Str} :
    ∀ x xs, joinWith sep items = x :: xs → x = sep := by
  cases items with
  | nil =>
    intro x xs h
    simp [joinWith] at h
  | cons y ys =>
    intro x xs h
    rw [joinWith_cons, List.cons_append] at h
    exact ((List.cons.injEq _ _ _ _).mp h).1.symm

theorem append_head {P : Char → Prop} {b1 b2 : Str}
    (h1 : ∀ x xs, b1 = x :: xs → P x) (h2 : ∀ x xs, b2 = x :: xs → P x) :
    ∀ x xs, b1 ++ b2 = x :: xs → P x := by
  cases b1 with
  | nil => simpa using h2
  | cons y ys =>
    intro x xs h
    rw [List.cons_append] at h
    have hx := ((List.cons.injEq _ _ _ _).mp h).1
    exact hx ▸ h1 y ys rfl

/-- Heads of the class/status suffix always fail `notSep`. -/
theorem suffix_head_sep {cls sts : List Str} :
    ∀ x xs, joinWith '.' cls ++ joinWith ':' sts = x :: xs →
      notSep x = false := by
  refine append_head (fun x xs h => ?_) (fun x xs h => ?_)
  · rw [joinWith_head_sep x xs h]
    decide
  · rw [joinWith_head_sep x xs h]
    decide

/-- `parseSegs` inverts `joinWith` when the separator really is a
separator, the segments are well-formed, and the remainder does not
begin with another `sep` segment. -/
theorem parseSegs_join {sep : Char} (hsep : notSep sep = false) :
    ∀ (items : List Str), (∀ s ∈ items, WfStr s) →
    ∀ (r : Str), (∀ x xs, r = x :: xs → notSep x = false ∧ x ≠ sep) →
    parseSegs sep (joinWith sep items ++ r) = (items, r) := by
  intro items
  induction items with
  | nil =>
    intro _ r hr
    simp only [joinWith, List.map_nil, List.flatten_nil, List.nil_append]
    cases r with
    | nil => simp [parseSegs]
    | cons x xs =>
      unfold parseSegs
      simp [(hr x xs rfl).2]
  | cons seg rest ih =>
    intro hwf r hr
    have hseg := hwf seg (List.mem_cons_self _ _)
    have heq : joinWith sep (seg :: rest) ++ r =
        sep :: (seg ++ (joinWith sep rest ++ r)) := by
      rw [joinWith_cons]
      simp [List.append_assoc]
    rw [heq]
    unfold parseSegs
    simp only [if_pos rfl]
    have hb : ∀ x xs, joinWith sep rest ++ r = x :: xs → notSep x = false := by
      refine append_head (fun x xs h => ?_) (fun x xs h => (hr x xs h).1)
      rw [joinWith_head_sep x xs h]
      exact hsep
    obtain ⟨htw, hdw⟩ := tw_append hseg.2 hb
    rw [htw, hdw, ih (fun s hs => hwf s (List.mem_cons_of_mem _ hs)) r hr]
    simp



theorem decodeAfterType_id {d : Str} (hd : WfStr d) (r2 : Str)
    (hr2 : ∀ x xs, r2 = x :: xs → notSep x = false) :
    decodeAfterType ('#' :: (d ++ r2)) = (some d, r2) := by
  obtain ⟨htw, hdw⟩ := tw_append hd.2 hr2
  simp [decodeAfterType, htw, hdw]

theorem decodeAfterType_none (r1 : Str)
    (hr1 : ∀ x xs, r1 = x :: xs → x ≠ '#') :
    decodeAfterType r1 = (none, r1) := by
  cases r1 with
  | nil => rfl
  | cons x xs => simp [decodeAfterType, hr1 x xs rfl]

theorem decode_suffix {cls sts : List Str} (hc : ∀ c ∈ cls, WfStr c)
    (hs : ∀ s ∈ sts, WfStr s) :
    parseSegs '.' (joinWith '.' cls ++ joinWith ':' sts) =
      (cls, joinWith ':' sts) ∧
    parseSegs ':' (joinWith ':' sts) = (sts, []) := by
  constructor
  · refine @parseSegs_join '.' (by decide) cls hc _ (fun x xs h => ?_)
    rw [joinWith_head_sep x xs h]
    exact ⟨by decide, by decide⟩
  · have := @parseSegs_join ':' (by decide) sts hs []
      (fun x xs h => by simp at h)
    simpa using this

/-- The suffix after the type part never starts with `#` unless the id
is present. -/
theorem suffix_head_ne_hash {cls sts : List Str} :
    ∀ x xs, joinWith '.' cls ++ joinWith ':' sts = x :: xs → x ≠ '#' := by
  refine append_head (fun x xs h => ?_) (fun x xs h => ?_)
  · rw [joinWith_head_sep x xs h]
    decide
  · rw [joinWith_head_sep x xs h]
    decide

/-- Decoding inverts the full-name construction on well-formed
nodes. -/
theorem decode_fullnameOf {n : SNode} (h : WfSNode n) :
    decodeNode (fullnameOf n) = (n.typ, n.id, n.classes, n.status) := by
  obtain ⟨ht, hd, hc, hs⟩ := h
  obtain ⟨hps1, hps2⟩ := decode_suffix hc hs
  have hJ12 : ∀ x xs,
      joinWith '.' n.classes ++ joinWith ':' n.status = x :: xs →
        notSep x = false := suffix_head_sep
  have hbhash : ∀ (d : Str) (x : Char) (xs : List Char),
      '#' :: (d ++ (joinWith '.' n.classes ++ joinWith ':' n.status)) =
        x :: xs → notSep x = false := by
    intro d x xs hx
    have := ((List.cons.injEq _ _ _ _).mp hx).1
    rw [← this]
    decide
  rcases htyp : n.typ with _ | t <;> rcases hid : n.id with _ | d
  · -- no type, no id
    have hfn : fullnameOf n =
        joinWith '.' n.classes ++ joinWith ':' n.status := by
      simp [fullnameOf, htyp, hid]
    obtain ⟨htw, hdw⟩ := @tw_append notSep ([] : Str)
      (joinWith '.' n.classes ++ joinWith ':' n.status)
      (fun c hc => absurd hc (List.not_mem_nil c)) hJ12
    simp only [List.nil_append] at htw hdw
    have hafter := decodeAfterType_none
      (joinWith '.' n.classes ++ joinWith ':' n.status) suffix_head_ne_hash
    rw [hfn]
    simp only [decodeNode, htw, hdw, hafter, hps1, hps2, htyp, hid]
    simp
  · -- id only
    have hfn : fullnameOf n =
        '#' :: (d ++ (joinWith '.' n.classes ++ joinWith ':' n.status)) := by
      simp [fullnameOf, htyp, hid, List.append_assoc]
    obtain ⟨htw, hdw⟩ := @tw_append notSep ([] : Str)
      ('#' :: (d ++ (joinWith '.' n.classes ++ joinWith ':' n.status)))
      (fun c hc => absurd hc (List.not_mem_nil c)) (hbhash d)
    simp only [List.nil_append] at htw hdw
    have hafter := decodeAfterType_id (hd d hid) _ hJ12
    rw [hfn]
    simp only [decodeNode, htw, hdw, hafter, hps1, hps2, htyp, hid]
    simp
  · -- type only
    have hfn : fullnameOf n =
        t ++ (joinWith '.' n.classes ++ joinWith ':' n.status) := by
      simp [fullnameOf, htyp, hid, List.append_assoc]
    obtain ⟨htw, hdw⟩ := @tw_append notSep t _ (ht t htyp).2 hJ12
    have hafter := decodeAfterType_none
      (joinWith '.' n.classes ++ joinWith ':' n.status) suffix_head_ne_hash
    rw [hfn]
    simp only [decodeNode, htw, hdw, hafter, hps1, hps2, htyp, hid]
    simp [(ht t htyp).1]
  · -- type and id
    have hfn : fullnameOf n =
        t ++ ('#' :: (d ++ (joinWith '.' n.classes ++ joinWith ':' n.status))) := by
      simp [fullnameOf, htyp, hid, List.append_assoc]
    obtain ⟨htw, hdw⟩ := @tw_append notSep t _ (ht t htyp).2 (hbhash d)
    have hafter := decodeAfterType_id (hd d hid) _ hJ12
    rw [hfn]
    simp only [decodeNode, htw, hdw, hafter, hps1, hps2, htyp, hid]
    simp [(ht t htyp).1]

/-- The canonical full name uniquely determines a well-formed node's
content. -/
theorem fullnameOf_inj {n1 n2 : SNode} (h1 : WfSNode n1) (h2 : WfSNode n2)
    (he : fullnameOf n1 = fullnameOf n2) :
    n1.typ = n2.typ ∧ n1.id = n2.id ∧ n1.classes = n2.classes ∧
      n1.status = n2.status := by
  have d1 := decode_fullnameOf h1
  have d2 := decode_fullnameOf h2
  rw [he, d2] at d1
  simp only [Prod.mk.injEq] at d1
  exact ⟨d1.1.symm, d1.2.1.symm, d1.2.2.1.symm, d1.2.2.2.symm⟩



/-- C5 (counterexample): the selector parser, fed `"a.:h"`, logs an
invalid-node error for the empty class component, drops the node that
already carried the type `a` (whose +1 was already added to the
selector rank), and still returns a selector: its rank is 11 while the
sum of its nodes' ranks is 10 — the selector-level rank is not the sum
over its nodes. -/
theorem C5_selector_rank_not_sum :
    (cssSelectorCreateFull (str "a.:h") 1).map
      (fun p => (p.1.rank, (p.1.nodes.map (fun n => n.rank)).sum, p.2)) =
      some (11, 10, true) := by decide

/-- C5 (amended): every node produced by the selector parser has
`rank = 100·[id] + 10·|classes| + 10·|states| + 1·[type]`, and the
node's `fullname` uniquely determines `(type, id, sorted classes,
sorted states)` across any two parser outputs; the selector-level rank
equals the sum over its nodes provided every node component was saved
successfully (no invalid-selector-node error occurred, reported here
by the ghost flag of `cssSelectorCreateFull`). -/
theorem C5_rank_and_fullname (t1 t2 : Str) (b1 b2 : Nat)
    (p1 p2 : Selector × Bool)
    (h1 : cssSelectorCreateFull t1 b1 = some p1)
    (h2 : cssSelectorCreateFull t2 b2 = some p2) :
    (p1.2 = false → p1.1.rank = (p1.1.nodes.map (fun n => n.rank)).sum) ∧
    (∀ n ∈ p1.1.nodes, n.rank =
      100 * (if n.id.isSome then 1 else 0) + 10 * n.classes.length +
        10 * n.status.length + (if n.typ.isSome then 1 else 0)) ∧
    (∀ m1 ∈ p1.1.nodes, ∀ m2 ∈ p2.1.nodes, m1.fullname = m2.fullname →
      m1.typ = m2.typ ∧ m1.id = m2.id ∧ m1.classes = m2.classes ∧
        m1.status = m2.status) := by
  have inv1 := foldl_inv t1 pInit pInit_inv
  have inv2 := foldl_inv t2 pInit pInit_inv
  unfold cssSelectorCreateFull at h1 h2
  rcases p1 with ⟨s1, e1⟩
  rcases p2 with ⟨s2, e2⟩
  have sp1 := pFinish_spec inv1 b1 h1
  have sp2 := pFinish_spec inv2 b2 h2
  refine ⟨?_, ?_, ?_⟩
  · intro he
    simp only at he
    rw [sp1.1 he, map_sum_congr (fun n hn => (sp1.2 n hn).2.1)]
  · intro n hn
    rw [(sp1.2 n hn).2.1]
    unfold nodeRankOf TYPE_RANK CLASS_RANK PCLASS_RANK ID_RANK
    cases hid : n.id.isSome <;> cases htp : n.typ.isSome <;>
      simp [hid, htp] <;> ring
  · intro m1 hm1 m2 hm2 hfe
    have f1 := (sp1.2 m1 hm1).2.2
    have f2 := (sp2.2 m2 hm2).2.2
    rw [f1, f2] at hfe
    exact fullnameOf_inj (sp1.2 m1 hm1).1 (sp2.2 m2 hm2).1
      (Option.some.inj hfe)

theorem C5_rank_and_fullname_witness :
    cssSelectorCreateFull (str "a") 5 = some (aSel 5, false) ∧
    (aSel 5).rank = ((aSel 5).nodes.map (fun n => n.rank)).sum ∧
    aNode.rank = 100 * (if aNode.id.isSome then 1 else 0) +
      10 * aNode.classes.length + 10 * aNode.status.length +
      (if aNode.typ.isSome then 1 else 0) ∧
    aNode.typ = aNode.typ := by
  have h := C5_rank_and_fullname (str "a") (str "a") 5 6 (aSel 5, false)
    (aSel 6, false) (by decide) (by decide)
  exact ⟨by decide, h.1 rfl, h.2.1 aNode (by decide),
    (h.2.2 aNode (by decide) aNode (by decide) rfl).1⟩


end LCUICss
